import Mathlib

/-!
# Verification of the JSON lexer (`lexer.rs`, `tokens.rs`, `types.rs`)

A shallow embedding of the Rust JSON lexer.  The input character stream
(`Peekable<impl Iterator<Item = char>>`) is modelled as a `List Char`:
`peek` is `List.head?`, `next` is head/tail, and `read_while` is the
`takeWhile`/`dropWhile` pair (the longest prefix satisfying the predicate
is consumed and returned).

`f64` mantissa values are modelled as exact rationals: every numeric
literal the claims mention denotes the same rational on both sides of an
equality, and no claim observes IEEE rounding, so the exact-decimal value
is a faithful observation of `str::parse::<f64>` at the level of the
statements proved here.  `i16` exponents are modelled as integers with
the `i16` range check of `str::parse::<i16>`.
-/

namespace JsonLexer

attribute [local semireducible] Rat.mul Rat.inv Rat.add Rat.sub

/-- `ParenthesisType` from `types.rs`. -/
inductive ParenthesisType
  | Open
  | Close
deriving DecidableEq, Repr

/-- `JSONNumber` from `types.rs`: a mantissa (an `f64`, modelled as an exact
rational, see the file comment) and an optional `i16` exponent (modelled as
an integer; it is only ever built from a successful `parseI16`). -/
structure JSONNumber where
  mantissa : ℚ
  exponent : Option ℤ
deriving DecidableEq, Repr

/-- `Token` from `tokens.rs`.  `String` payloads are the raw character list. -/
inductive Token
  | Bracket (p : ParenthesisType)
  | CurlyBracket (p : ParenthesisType)
  | ElementDelimiter
  | KeyDelimiter
  | Null
  | Boolean (b : Bool)
  | Number (n : JSONNumber)
  | String (s : List Char)
deriving DecidableEq, Repr

/-- `Error` from `lexer.rs` (the source spells `UnkownKeyword`; the spec
calls the same variant "UnknownKeyword"). -/
inductive Error
  | UnexpectedEOF
  | UnknownChar
  | UnkownKeyword
  | UnclosedString
  | InvalidNumberFormat
  | InvalidExponentFormat
deriving DecidableEq, Repr

deriving instance DecidableEq for Except

/-- Rust `char::is_ascii_whitespace`: space, tab, newline, form feed,
carriage return. -/
def isAsciiWhitespace (c : Char) : Bool :=
  c == ' ' || c == '\t' || c == '\n' || c == '\x0C' || c == '\r'

/-- Rust `char::is_ascii_alphabetic`; Lean's `Char.isAlpha` is exactly the
ASCII `A`–`Z`/`a`–`z` test. -/
def isAsciiAlphabetic (c : Char) : Bool :=
  c.isAlpha

/-- Digit run to its decimal value (`'0'` has code point 48). -/
def digitsToNat (ds : List Char) : ℕ :=
  ds.foldl (fun a c => 10 * a + (c.toNat - 48)) 0

/-- Optional leading sign of a numeric text, as Rust's signed parsers
strip it: `-` gives sign `-1`, `+` gives `1`, anything else is unsigned. -/
def splitSign (s : List Char) : ℤ × List Char :=
  match s with
  | [] => (1, [])
  | c :: t => if c = '-' then (-1, t) else if c = '+' then (1, t) else (1, c :: t)

/-- Model of Rust `str::parse::<i16>`: optional single leading sign, then a
nonempty all-digit run, and the value must fit in `i16`; otherwise `none`. -/
def parseI16 (s : List Char) : Option ℤ :=
  let (sgn, t) := splitSign s
  if t ≠ [] ∧ t.all Char.isDigit then
    let v : ℤ := sgn * digitsToNat t
    if -32768 ≤ v ∧ v ≤ 32767 then some v else none
  else none

/-- The integer-dot-fraction core of the `f64` decimal grammar:
`Digit+ | Digit+ '.' Digit* | Digit* '.' Digit+`, valued exactly in `ℚ`. -/
def parseDecimalCore (t : List Char) : Option ℚ :=
  let ip := t.takeWhile Char.isDigit
  let rest := t.drop ip.length
  match rest with
  | [] => if ip = [] then none else some (digitsToNat ip)
  | d :: fp' =>
    if d = '.' then
      let fp := fp'.takeWhile Char.isDigit
      if fp'.drop fp.length ≠ [] then none
      else if ip = [] ∧ fp = [] then none
      else some ((digitsToNat (ip ++ fp) : ℚ) / (10 : ℚ) ^ fp.length)
    else none

/-- Model of Rust `str::parse::<f64>` on decimal literals: optional sign,
decimal core, optional `e`/`E` exponent (`Sign? Digit+`).  The `inf`/`NaN`
spellings of the Rust grammar are unreachable from the lexer (mantissa
texts contain only digits, `.`, and a possible leading sign) and are not
modelled.  The value is exact in `ℚ`. -/
def parseF64 (s : List Char) : Option ℚ :=
  let (sgn, t) := splitSign s
  let mant := t.takeWhile (fun c => !(c == 'e' || c == 'E'))
  let rest := t.drop mant.length
  match parseDecimalCore mant with
  | none => none
  | some m =>
    match rest with
    | [] => some (sgn * m)
    | _ :: et =>
      let (esgn, ed) := splitSign et
      if ed ≠ [] ∧ ed.all Char.isDigit then
        some (sgn * m * (10 : ℚ) ^ (esgn * (digitsToNat ed : ℤ)))
      else none

/-- Predicate of the mantissa `read_while` in `lexer.rs`:
`next.is_ascii_digit() || next == '.'`. -/
def mantissaChar (c : Char) : Bool :=
  c.isDigit || c == '.'

/-- Predicate of the exponent `read_while` in `lexer.rs`:
`next.is_ascii_digit() || next == '+' || next == '-'`. -/
def exponentChar (c : Char) : Bool :=
  c.isDigit || c == '+' || c == '-'

/-- Predicate of the resynchronizing drain in `lexer.rs`: keep consuming
while the character is not `,`, `]`, or `}`. -/
def drainChar (c : Char) : Bool :=
  !(c == ',' || c == ']' || c == '\x7d')

/-- The `'"'` arm of `Lexer::next`: `read_while(|next| next != '"')`, then
one more `source.next()` which must be the closing quote. -/
def scanString (rest : List Char) : Except Error Token × List Char :=
  let str := rest.takeWhile (fun ch => ch != '"')
  match rest.dropWhile (fun ch => ch != '"') with
  | q :: r =>
    if q = '"' then (.ok (.String str), r)
    else (.error .UnclosedString, r)
  | [] => (.error .UnclosedString, [])

/-- The early-reject check of the number arm of `Lexer::next`: lead `'0'`
with a digit in the (unconsumed) lookahead, or lead `'+'`. -/
def earlyNumberErr (c : Char) (rest : List Char) : Option Error :=
  if c = '0' then
    match rest.head? with
    | some n => if n.isDigit then some .InvalidNumberFormat else none
    | none => none
  else if c = '+' then some .InvalidNumberFormat
  else none

/-- The exponent block of the number arm of `Lexer::next`: on an `e`/`E`
lookahead, consume it and `read_while` the sign/digit run; an empty, bare
`+`, or bare `-` run is the early-return `InvalidExponentFormat` (the
`Except.error` side carries the cursor at that early return). -/
def scanExponent (r1 : List Char) : Except (List Char) (Option (List Char) × List Char) :=
  match r1 with
  | x :: r2 =>
    if x = 'e' ∨ x = 'E' then
      let exp := r2.takeWhile exponentChar
      let r3 := r2.dropWhile exponentChar
      if exp = ['+'] ∨ exp = ['-'] ∨ exp = [] then .error r3
      else .ok (some exp, r3)
    else .ok (none, x :: r2)
  | [] => .ok (none, [])

/-- The number arm of `Lexer::next` (lead character `c` already consumed):
early reject + drain, mantissa `read_while`, exponent block, then the
mantissa `f64` parse and the exponent `i16` parse, in the source's order. -/
def scanNumber (c : Char) (rest : List Char) : Except Error Token × List Char :=
  match earlyNumberErr c rest with
  | some e => (.error e, rest.dropWhile drainChar)
  | none =>
    let mantissa := c :: rest.takeWhile mantissaChar
    match scanExponent (rest.dropWhile mantissaChar) with
    | .error r3 => (.error .InvalidExponentFormat, r3)
    | .ok (exponent, r3) =>
      match parseF64 mantissa with
      | none => (.error .InvalidNumberFormat, r3)
      | some m =>
        match exponent.map parseI16 with
        | some none => (.error .InvalidNumberFormat, r3)
        | some (some ex) => (.ok (.Number ⟨m, some ex⟩), r3)
        | none => (.ok (.Number ⟨m, none⟩), r3)

/-- The keyword arm of `Lexer::next` (triggering alphabetic `c` already
consumed): `read_while(is_ascii_alphabetic)` then an exact match. -/
def scanKeyword (c : Char) (rest : List Char) : Except Error Token × List Char :=
  let keyword := c :: rest.takeWhile isAsciiAlphabetic
  let r := rest.dropWhile isAsciiAlphabetic
  if keyword = "true".toList then (.ok (.Boolean true), r)
  else if keyword = "false".toList then (.ok (.Boolean false), r)
  else if keyword = "null".toList then (.ok .Null, r)
  else (.error .UnkownKeyword, r)

/-- `Lexer::next` from `lexer.rs`.  Returns `none` at end of input,
otherwise the produced `Result<Token>` together with the remaining
(unconsumed) input.  Branches appear in the source's dispatch order. -/
def next (s : List Char) : Option (Except Error Token × List Char) :=
  match s with
  | [] => none
  | c :: rest =>
    if c = '[' then some (.ok (.Bracket .Open), rest)
    else if c = ']' then some (.ok (.Bracket .Close), rest)
    else if c = '\x7b' then some (.ok (.CurlyBracket .Open), rest)
    else if c = '\x7d' then some (.ok (.CurlyBracket .Close), rest)
    else if c = ',' then some (.ok .ElementDelimiter, rest)
    else if c = ':' then some (.ok .KeyDelimiter, rest)
    else if c = '"' then some (scanString rest)
    else if isAsciiWhitespace c then next rest
    else if c.isDigit || c = '-' || c = '+' then some (scanNumber c rest)
    else if isAsciiAlphabetic c then some (scanKeyword c rest)
    else some (.error .UnknownChar, rest)


theorem length_dropWhile_le (p : Char → Bool) (l : List Char) :
    (l.dropWhile p).length ≤ l.length := by
  induction l with
  | nil => simp
  | cons a l ih =>
    rw [List.dropWhile_cons]
    split
    · exact Nat.le_succ_of_le ih
    · simp

theorem scanString_length (rest : List Char) :
    (scanString rest).2.length ≤ rest.length := by
  rw [scanString]
  have h := length_dropWhile_le (fun ch => ch != '"') rest
  split
  · rename_i q r heq
    rw [heq] at h
    simp only [List.length_cons] at h
    split <;> simp <;> omega
  · simp

theorem scanExponent_ok_length {r1 : List Char} {e : Option (List Char)} {r3 : List Char}
    (h : scanExponent r1 = .ok (e, r3)) : r3.length ≤ r1.length := by
  rw [scanExponent.eq_def] at h
  split at h
  · rename_i x r2
    split at h
    · dsimp only at h
      split at h
      · exact absurd h (by simp)
      · simp only [Except.ok.injEq, Prod.mk.injEq] at h
        have := length_dropWhile_le exponentChar r2
        simp only [← h.2, List.length_cons]
        omega
    · simp only [Except.ok.injEq, Prod.mk.injEq] at h
      simp [← h.2]
  · simp only [Except.ok.injEq, Prod.mk.injEq] at h
    simp [← h.2]

theorem scanExponent_error_length {r1 : List Char} {r3 : List Char}
    (h : scanExponent r1 = .error r3) : r3.length ≤ r1.length := by
  rw [scanExponent.eq_def] at h
  split at h
  · rename_i x r2
    split at h
    · dsimp only at h
      split at h
      · simp only [Except.error.injEq] at h
        have := length_dropWhile_le exponentChar r2
        simp only [← h, List.length_cons]
        omega
      · exact absurd h (by simp)
    · exact absurd h (by simp)
  · exact absurd h (by simp)

theorem scanNumber_length (c : Char) (rest : List Char) :
    (scanNumber c rest).2.length ≤ rest.length := by
  rw [scanNumber]
  have hm := length_dropWhile_le mantissaChar rest
  split
  · simpa using length_dropWhile_le drainChar rest
  · split
    · rename_i r3 heq
      have := scanExponent_error_length heq
      simpa using le_trans this hm
    · rename_i p r3 heq
      have h3 := le_trans (scanExponent_ok_length heq) hm
      dsimp only
      generalize parseF64 (c :: List.takeWhile mantissaChar rest) = z
      rcases z with _ | m
      · simpa using h3
      · rcases p with _ | l
        · simpa using h3
        · simp only [Option.map_some']
          generalize parseI16 l = w
          rcases w with _ | ex <;> simpa using h3

theorem scanKeyword_length (c : Char) (rest : List Char) :
    (scanKeyword c rest).2.length ≤ rest.length := by
  rw [scanKeyword]
  have h := length_dropWhile_le isAsciiAlphabetic rest
  split
  · simpa using h
  · split
    · simpa using h
    · split <;> simpa using h

theorem next_some_length {s : List Char} {r : Except Error Token} {rest : List Char}
    (h : next s = some (r, rest)) : rest.length < s.length := by
  induction s generalizing r rest with
  | nil => simp [next] at h
  | cons c t ih =>
    rw [next] at h
    repeat' split at h
    all_goals
      first
      | exact Nat.lt_succ_of_lt (ih h)
      | (injection h with h'
         first
         | (have hs := scanString_length t
            rw [h'] at hs
            dsimp only at hs
            simp only [List.length_cons]
            omega)
         | (have hs := scanNumber_length c t
            rw [h'] at hs
            dsimp only at hs
            simp only [List.length_cons]
            omega)
         | (have hs := scanKeyword_length c t
            rw [h'] at hs
            dsimp only at hs
            simp only [List.length_cons]
            omega)
         | (injection h' with h1 h2
            subst h2
            exact Nat.lt_succ_self _))

/-- The `Result` items of repeated `Iterator::next` pulls, fueled.  `fuel`
bounds the number of pulls; `next_some_length` shows `s.length + 1` always
suffices, and `lexItemsF_congr` shows any sufficient fuel gives the same
items. -/
def lexItemsF (fuel : ℕ) (s : List Char) : List (Except Error Token) :=
  match fuel with
  | 0 => []
  | fuel + 1 =>
    match next s with
    | none => []
    | some (r, rest) => r :: lexItemsF fuel rest

/-- The full sequence of `Result` items the `Lexer` iterator produces on
`s`, in production order. -/
def lexItems (s : List Char) : List (Except Error Token) :=
  lexItemsF (s.length + 1) s

/-- `lex` from `lexer.rs`, fueled: `collect::<Result<Vec<Token>, _>>` pulls
items, prepending tokens, and stops at the first error. -/
def lexF (fuel : ℕ) (s : List Char) : Except Error (List Token) :=
  match fuel with
  | 0 => .ok []
  | fuel + 1 =>
    match next s with
    | none => .ok []
    | some (.error e, _) => .error e
    | some (.ok t, rest) => (lexF fuel rest).map (t :: ·)

/-- `lex` from `lexer.rs` on a complete input. -/
def lex (s : List Char) : Except Error (List Token) :=
  lexF (s.length + 1) s

theorem lexItemsF_congr {f₁ f₂ : ℕ} {s : List Char}
    (h₁ : s.length < f₁) (h₂ : s.length < f₂) :
    lexItemsF f₁ s = lexItemsF f₂ s := by
  induction f₁ generalizing f₂ s with
  | zero => omega
  | succ f₁ ih =>
    cases f₂ with
    | zero => omega
    | succ f₂ =>
      rw [lexItemsF, lexItemsF]
      cases hn : next s with
      | none => rfl
      | some p =>
        obtain ⟨r, rest⟩ := p
        have hl := next_some_length hn
        dsimp only
        rw [@ih f₂ rest (by omega) (by omega)]

theorem lexItems_step {s : List Char} {r : Except Error Token} {rest : List Char}
    (h : next s = some (r, rest)) : lexItems s = r :: lexItems rest := by
  have hl := next_some_length h
  rw [lexItems, lexItems, lexItemsF, h]
  dsimp only
  rw [@lexItemsF_congr s.length (rest.length + 1) rest hl (Nat.lt_succ_self _)]

theorem lexItems_none {s : List Char} (h : next s = none) : lexItems s = [] := by
  rw [lexItems, lexItemsF, h]

theorem lexF_congr {f₁ f₂ : ℕ} {s : List Char}
    (h₁ : s.length < f₁) (h₂ : s.length < f₂) :
    lexF f₁ s = lexF f₂ s := by
  induction f₁ generalizing f₂ s with
  | zero => omega
  | succ f₁ ih =>
    cases f₂ with
    | zero => omega
    | succ f₂ =>
      rw [lexF, lexF]
      cases hn : next s with
      | none => rfl
      | some p =>
        obtain ⟨r, rest⟩ := p
        have hl := next_some_length hn
        cases r with
        | error e => rfl
        | ok t =>
          dsimp only
          rw [@ih f₂ rest (by omega) (by omega)]

theorem lex_step_ok {s : List Char} {t : Token} {rest : List Char}
    (h : next s = some (.ok t, rest)) : lex s = (lex rest).map (t :: ·) := by
  have hl := next_some_length h
  rw [lex, lex, lexF, h]
  dsimp only
  rw [@lexF_congr s.length (rest.length + 1) rest hl (Nat.lt_succ_self _)]

theorem lex_step_error {s : List Char} {e : Error} {rest : List Char}
    (h : next s = some (.error e, rest)) : lex s = .error e := by
  rw [lex, lexF, h]

theorem lex_none {s : List Char} (h : next s = none) : lex s = .ok [] := by
  rw [lex, lexF, h]

theorem ws_char_cases {c : Char} (h : isAsciiWhitespace c = true) :
    c = ' ' ∨ c = '\t' ∨ c = '\n' ∨ c = '\x0C' ∨ c = '\r' := by
  have h' := h
  simp only [isAsciiWhitespace, Bool.or_eq_true, beq_iff_eq] at h'
  tauto

theorem next_ws_cons {c : Char} (h : isAsciiWhitespace c = true) (s : List Char) :
    next (c :: s) = next s := by
  rcases ws_char_cases h with rfl | rfl | rfl | rfl | rfl <;> rfl

theorem next_ws_append {w : List Char} (h : ∀ c ∈ w, isAsciiWhitespace c = true)
    (s : List Char) : next (w ++ s) = next s := by
  induction w with
  | nil => rfl
  | cons c w ih =>
    rw [List.cons_append, next_ws_cons (h c (by simp)) (w ++ s)]
    exact ih (fun x hx => h x (by simp [hx]))

theorem lexItems_ws_append {w : List Char} (h : ∀ c ∈ w, isAsciiWhitespace c = true)
    (s : List Char) : lexItems (w ++ s) = lexItems s := by
  have hn := next_ws_append h s
  cases hs : next s with
  | none => rw [lexItems_none (hn.trans hs), lexItems_none hs]
  | some p =>
    obtain ⟨r, rest⟩ := p
    rw [lexItems_step (hn.trans hs), lexItems_step hs]

/-- A character satisfying a decidable class is not any concrete character
outside that class. -/
theorem ne_of_pred {p : Char → Bool} {c x : Char} (h : p c = true)
    (hx : p x = false) : ¬c = x := fun e => by
  rw [e] at h
  rw [h] at hx
  exact Bool.noConfusion hx

/-- A character satisfying a class with no whitespace member is not ASCII
whitespace. -/
theorem ws_false_of_pred {p : Char → Bool} {c : Char} (h : p c = true)
    (h1 : p ' ' = false) (h2 : p '\t' = false) (h3 : p '\n' = false)
    (h4 : p '\x0C' = false) (h5 : p '\r' = false) :
    isAsciiWhitespace c = false := by
  cases hb : isAsciiWhitespace c with
  | false => rfl
  | true =>
    exfalso
    rcases ws_char_cases hb with rfl | rfl | rfl | rfl | rfl <;> simp_all

/-- The characters that make `Lexer::next` dispatch into the number arm
are not handled by any earlier arm. -/
theorem numberLead_facts {c : Char} (h : c.isDigit = true ∨ c = '-' ∨ c = '+') :
    ¬c = '[' ∧ ¬c = ']' ∧ ¬c = '\x7b' ∧ ¬c = '\x7d' ∧ ¬c = ',' ∧ ¬c = ':' ∧
      ¬c = '"' ∧ isAsciiWhitespace c = false := by
  rcases h with h | rfl | rfl
  · exact ⟨ne_of_pred h (by decide), ne_of_pred h (by decide),
      ne_of_pred h (by decide), ne_of_pred h (by decide),
      ne_of_pred h (by decide), ne_of_pred h (by decide),
      ne_of_pred h (by decide),
      ws_false_of_pred h (by decide) (by decide) (by decide) (by decide) (by decide)⟩
  · decide
  · decide

/-- Dispatch of `Lexer::next` on a number lead character. -/
theorem next_numberLead {c : Char} (h : c.isDigit = true ∨ c = '-' ∨ c = '+')
    (rest : List Char) : next (c :: rest) = some (scanNumber c rest) := by
  obtain ⟨h1, h2, h3, h4, h5, h6, h7, h8⟩ := numberLead_facts h
  rw [next]
  simp only [h1, h2, h3, h4, h5, h6, h7, h8, if_false, Bool.false_eq_true]
  have hb : (c.isDigit || decide (c = '-') || decide (c = '+')) = true := by
    rcases h with h | rfl | rfl
    · simp [h]
    · simp
    · simp
  simp [hb]

theorem drain_resync (rest : List Char) :
    rest.dropWhile drainChar = [] ∨
      ∃ d r, rest.dropWhile drainChar = d :: r ∧ (d = ',' ∨ d = ']' ∨ d = '\x7d') := by
  have hh := List.head?_dropWhile_not drainChar rest
  cases hdw : rest.dropWhile drainChar with
  | nil => exact Or.inl rfl
  | cons d r =>
    right
    refine ⟨d, r, rfl, ?_⟩
    rw [hdw] at hh
    simp only [List.head?_cons] at hh
    simp only [drainChar, Bool.not_eq_false', Bool.or_eq_true, beq_iff_eq] at hh
    tauto

/-- C1: a number-path input whose lead is `'+'`, or `'0'` with a digit in
the lookahead, makes `next` return `InvalidNumberFormat` after draining the
input up to (not including) the first `,`, `]`, or `}` — so the remaining
input on which the following `next` call starts is empty or begins with
one of those delimiters. -/
theorem C1_early_reject_drains (c : Char) (rest : List Char)
    (h : c = '+' ∨ (c = '0' ∧ ∃ d, rest.head? = some d ∧ d.isDigit = true)) :
    next (c :: rest) = some (.error .InvalidNumberFormat, rest.dropWhile drainChar) ∧
      (rest.dropWhile drainChar = [] ∨
        ∃ d r, rest.dropWhile drainChar = d :: r ∧ (d = ',' ∨ d = ']' ∨ d = '\x7d')) := by
  refine ⟨?_, drain_resync rest⟩
  rcases h with rfl | ⟨rfl, d, hd, hdig⟩
  · rw [next_numberLead (Or.inr (Or.inr rfl))]
    simp [scanNumber, earlyNumberErr]
  · rw [next_numberLead (Or.inl (by decide))]
    rw [scanNumber, earlyNumberErr]
    simp only [if_pos rfl, hd, hdig, if_true]

theorem C1_witness :
    next ['+', '2', ',', 'x'] =
        some (.error .InvalidNumberFormat, (['2', ',', 'x'].dropWhile drainChar)) ∧
      (['2', ',', 'x'].dropWhile drainChar = [] ∨
        ∃ d r, ['2', ',', 'x'].dropWhile drainChar = d :: r ∧
          (d = ',' ∨ d = ']' ∨ d = '\x7d')) :=
  C1_early_reject_drains '+' ['2', ',', 'x'] (Or.inl rfl)

theorem takeWhile_middle {p : Char → Bool} {body tail : List Char}
    (hbody : ∀ y ∈ body, p y = true)
    (htail : ∀ y r', tail = y :: r' → p y = false) :
    (body ++ tail).takeWhile p = body ∧ (body ++ tail).dropWhile p = tail := by
  constructor
  · rw [List.takeWhile_append_of_pos hbody]
    cases tail with
    | nil => simp
    | cons y r => simp [List.takeWhile_cons, htail y r rfl]
  · rw [List.dropWhile_append_of_pos hbody]
    cases tail with
    | nil => simp
    | cons y r => simp [List.dropWhile_cons, htail y r rfl]

theorem earlyNumberErr_none {c : Char} {rest : List Char}
    (hc : ¬c = '+')
    (h0 : c = '0' → ∀ d, rest.head? = some d → d.isDigit = false) :
    earlyNumberErr c rest = none := by
  rw [earlyNumberErr]
  by_cases h : c = '0'
  · subst h
    simp only [if_pos rfl]
    cases hr : rest.head? with
    | none => rfl
    | some d => simp [h0 rfl d hr]
  · simp [h, hc]

/-- C3: in the number sub-rule, an `e`/`E` right after the mantissa text is
consumed together with the longest following run of digits, `+`, and `-`;
an empty, bare-`+`, or bare-`-` run makes `next` return
`InvalidExponentFormat`, leaving the cursor after the consumed run. -/
theorem C3_exponent_error (c x : Char) (body tail : List Char)
    (hc : c.isDigit = true ∨ c = '-')
    (h0 : c = '0' → ∀ d, (body ++ x :: tail).head? = some d → d.isDigit = false)
    (hbody : ∀ y ∈ body, mantissaChar y = true)
    (hx : x = 'e' ∨ x = 'E')
    (hrun : tail.takeWhile exponentChar = [] ∨ tail.takeWhile exponentChar = ['+'] ∨
      tail.takeWhile exponentChar = ['-']) :
    next (c :: body ++ x :: tail) =
      some (.error .InvalidExponentFormat, tail.dropWhile exponentChar) := by
  have hcp : ¬c = '+' := by
    rcases hc with h | rfl
    · exact ne_of_pred h (by decide)
    · decide
  have hxm : mantissaChar x = false := by rcases hx with rfl | rfl <;> decide
  have htail' : ∀ y r', x :: tail = y :: r' → mantissaChar y = false := by
    intro y r' hy
    injection hy with h1 h2
    rw [← h1]
    exact hxm
  have hdw := (takeWhile_middle hbody htail').2
  have hlead : c.isDigit = true ∨ c = '-' ∨ c = '+' := by tauto
  rw [List.cons_append, next_numberLead hlead]
  rw [scanNumber, earlyNumberErr_none hcp h0]
  rw [hdw]
  rw [scanExponent]
  simp only [if_pos hx]
  have : (tail.takeWhile exponentChar = ['+'] ∨ tail.takeWhile exponentChar = ['-'] ∨
      tail.takeWhile exponentChar = []) := by tauto
  simp only [if_pos this]

theorem C3_witness :
    next ("4E".toList) = some (.error .InvalidExponentFormat, []) ∧
      next ("4E+".toList) = some (.error .InvalidExponentFormat, []) ∧
      next ("4E-".toList) = some (.error .InvalidExponentFormat, []) := by
  refine ⟨?_, ?_, ?_⟩
  · have h := C3_exponent_error '4' 'E' [] [] (by decide) (by decide) (by decide)
      (by decide) (by decide)
    simpa using h
  · have h := C3_exponent_error '4' 'E' [] ['+'] (by decide) (by decide) (by decide)
      (by decide) (by decide)
    simpa using h
  · have h := C3_exponent_error '4' 'E' [] ['-'] (by decide) (by decide) (by decide)
      (by decide) (by decide)
    simpa using h

/-- C2 (amended): in the number sub-rule, an unparsable mantissa text gives
`InvalidNumberFormat` — provided no `e`/`E` follows the mantissa text (the
code checks exponent well-formedness first, so a malformed exponent part
after the unparsable mantissa reports `InvalidExponentFormat` instead; see
the counterexample). -/
theorem C2_mantissa_invalid (c : Char) (body tail : List Char)
    (hc : c.isDigit = true ∨ c = '-')
    (h0 : c = '0' → ∀ d, (body ++ tail).head? = some d → d.isDigit = false)
    (hbody : ∀ y ∈ body, mantissaChar y = true)
    (htail : ∀ y r', tail = y :: r' → (mantissaChar y = false ∧ ¬y = 'e' ∧ ¬y = 'E'))
    (hparse : parseF64 (c :: body) = none) :
    next (c :: body ++ tail) = some (.error .InvalidNumberFormat, tail) := by
  have hcp : ¬c = '+' := by
    rcases hc with h | rfl
    · exact ne_of_pred h (by decide)
    · decide
  have hlead : c.isDigit = true ∨ c = '-' ∨ c = '+' := by tauto
  have htw := takeWhile_middle hbody (fun y r' hy => (htail y r' hy).1)
  rw [List.cons_append, next_numberLead hlead]
  rw [scanNumber, earlyNumberErr_none hcp h0]
  rw [htw.2, htw.1]
  cases tail with
  | nil => simp [scanExponent, hparse]
  | cons y r =>
    obtain ⟨-, hye, hyE⟩ := htail y r rfl
    rw [scanExponent]
    simp only [hye, hyE, or_self, if_false]
    simp [hparse]

/-- C2 counterexample: after the unparsable mantissa text `20.0.0`, a
malformed exponent part is reported as `InvalidExponentFormat`, not as the
`InvalidNumberFormat` the claim requires for every such input. -/
theorem C2_counterexample :
    lex ("20.0.0E".toList) = .error .InvalidExponentFormat ∧
      lex ("20.0.0E".toList) ≠ .error .InvalidNumberFormat := by
  have h : lex ("20.0.0E".toList) = .error .InvalidExponentFormat := rfl
  refine ⟨h, ?_⟩
  rw [h]
  simp

theorem C2_witness :
    next ("20.0.0.0".toList) = some (.error .InvalidNumberFormat, []) := by
  have h := C2_mantissa_invalid '2' ("0.0.0.0".toList) [] (by decide) (by decide)
    (by decide) (fun y r' hy => by simp at hy) (by decide)
  simpa using h

/-- C4: well-formed exponent runs parse as ordinary signed decimal
integers — leading zeros permitted, a leading `+` permitted and stripped. -/
theorem C4_exponent_values :
    lex ("4E000002".toList) = .ok [.Number ⟨4, some 2⟩] ∧
      lex ("4E+000002".toList) = .ok [.Number ⟨4, some 2⟩] ∧
      lex ("4E2".toList) = .ok [.Number ⟨4, some 2⟩] ∧
      lex ("-214.12498E-200".toList) =
        .ok [.Number ⟨-(21412498 : ℚ) / 100000, some (-200)⟩] := by
  refine ⟨?_, ?_, ?_, ?_⟩ <;> decide

/-- C10: the leading-zero early rejection fires only when the lead
character itself is `'0'`: a `'-'` lead is never early-rejected, and
`"-01"` lexes to the single token `Number(-1.0, None)`. -/
theorem C10_minus_no_early_reject :
    (∀ rest : List Char, earlyNumberErr '-' rest = none) ∧
      lex ("-01".toList) = .ok [.Number ⟨-1, none⟩] :=
  ⟨fun _ => rfl, by decide⟩

/-- The structural token emitted for each structural bracket character. -/
def structuralToken (c : Char) : Token :=
  if c = '[' then .Bracket .Open
  else if c = ']' then .Bracket .Close
  else if c = '\x7b' then .CurlyBracket .Open
  else .CurlyBracket .Close

/-- C9: an input of bracket characters only lexes to exactly one
structural token per character, in source order. -/
theorem C9_structural (s : List Char)
    (h : ∀ c ∈ s, c = '[' ∨ c = ']' ∨ c = '\x7b' ∨ c = '\x7d') :
    lex s = .ok (s.map structuralToken) := by
  induction s with
  | nil => rfl
  | cons c t ih =>
    have hc := h c (by simp)
    have ht : ∀ x ∈ t, x = '[' ∨ x = ']' ∨ x = '\x7b' ∨ x = '\x7d' :=
      fun x hx => h x (by simp [hx])
    have step : next (c :: t) = some (.ok (structuralToken c), t) := by
      rcases hc with rfl | rfl | rfl | rfl <;> rfl
    rw [lex_step_ok step, ih ht]
    rfl

theorem C9_witness :
    lex ("[\x7d\x7d\x7b[]]\x7d]".toList) =
      .ok (("[\x7d\x7d\x7b[]]\x7d]".toList).map structuralToken) :=
  C9_structural _ (by decide)

/-- C6: the string sub-rule emits exactly the characters between the two
quotes, with no escape interpretation, and fails with `UnclosedString`
when the input ends before a closing quote. -/
theorem C6_string (s r : List Char) (h : ∀ c ∈ s, ¬c = '"') :
    next ('"' :: (s ++ '"' :: r)) = some (.ok (.String s), r) ∧
      next ('"' :: s) = some (.error .UnclosedString, []) := by
  have hb : ∀ c ∈ s, (fun ch => ch != '"') c = true := by
    intro c hc
    simpa using h c hc
  constructor
  · have hq : next ('"' :: (s ++ '"' :: r)) = some (scanString (s ++ '"' :: r)) := rfl
    rw [hq, scanString]
    rw [List.takeWhile_append_of_pos hb, List.dropWhile_append_of_pos hb]
    simp [List.takeWhile_cons, List.dropWhile_cons]
  · have hq : next ('"' :: s) = some (scanString s) := rfl
    rw [hq, scanString]
    have hd : s.dropWhile (fun ch => ch != '"') = [] :=
      List.dropWhile_eq_nil_iff.mpr hb
    rw [hd]

theorem C6_witness :
    next ("\"a,b;c\"".toList) = some (.ok (.String ("a,b;c".toList)), []) ∧
      next ("\"a,b;c".toList) = some (.error .UnclosedString, []) :=
  C6_string ("a,b;c".toList) [] (by decide)

/-- An ASCII-alphabetic character is not an ASCII digit (the two `Char`
ranges are disjoint). -/
theorem alpha_isDigit_false {c : Char} (h : isAsciiAlphabetic c = true) :
    c.isDigit = false := by
  cases hb : c.isDigit with
  | false => rfl
  | true =>
    exfalso
    simp only [Char.isDigit, Bool.and_eq_true, decide_eq_true_eq] at hb
    simp only [isAsciiAlphabetic, Char.isAlpha, Char.isUpper, Char.isLower,
      Bool.or_eq_true, Bool.and_eq_true, decide_eq_true_eq] at h
    have hx := hb.2
    rcases h with ⟨h1, -⟩ | ⟨h1, -⟩ <;>
      simp only [ge_iff_le, UInt32.le_def, BitVec.le_def] at h1 hx
    · rw [show (UInt32.toBitVec 65).toNat = 65 from rfl] at h1
      rw [show (UInt32.toBitVec 57).toNat = 57 from rfl] at hx
      omega
    · rw [show (UInt32.toBitVec 97).toNat = 97 from rfl] at h1
      rw [show (UInt32.toBitVec 57).toNat = 57 from rfl] at hx
      omega

/-- The characters that make `Lexer::next` dispatch into the keyword arm
are not handled by any earlier arm. -/
theorem alphaLead_facts {c : Char} (h : isAsciiAlphabetic c = true) :
    ¬c = '[' ∧ ¬c = ']' ∧ ¬c = '\x7b' ∧ ¬c = '\x7d' ∧ ¬c = ',' ∧ ¬c = ':' ∧
      ¬c = '"' ∧ isAsciiWhitespace c = false ∧ c.isDigit = false ∧
      ¬c = '-' ∧ ¬c = '+' :=
  ⟨ne_of_pred h (by decide), ne_of_pred h (by decide), ne_of_pred h (by decide),
    ne_of_pred h (by decide), ne_of_pred h (by decide), ne_of_pred h (by decide),
    ne_of_pred h (by decide),
    ws_false_of_pred h (by decide) (by decide) (by decide) (by decide) (by decide),
    alpha_isDigit_false h, ne_of_pred h (by decide), ne_of_pred h (by decide)⟩

/-- Dispatch of `Lexer::next` on an alphabetic lead character. -/
theorem next_alphaLead {c : Char} (h : isAsciiAlphabetic c = true)
    (rest : List Char) : next (c :: rest) = some (scanKeyword c rest) := by
  obtain ⟨h1, h2, h3, h4, h5, h6, h7, h8, h9, h10, h11⟩ := alphaLead_facts h
  rw [next]
  have hnum : (c.isDigit || decide (c = '-') || decide (c = '+')) = false := by
    simp [h9, h10, h11]
  simp only [h1, h2, h3, h4, h5, h6, h7, h8, hnum, h, if_false, if_true,
    Bool.false_eq_true, if_neg]

/-- C7: the keyword sub-rule forms its candidate from the triggering
alphabetic character and the longest following alphabetic run, and decides
by exact, case-sensitive whole-string match: `true`, `false`, `null`, and
everything else is `UnkownKeyword` (so no proper prefix of a keyword is
ever accepted as that keyword). -/
theorem C7_keyword (c : Char) (rest : List Char) (h : isAsciiAlphabetic c = true) :
    next (c :: rest) =
      some ((if c :: rest.takeWhile isAsciiAlphabetic = "true".toList then
          .ok (.Boolean true)
        else if c :: rest.takeWhile isAsciiAlphabetic = "false".toList then
          .ok (.Boolean false)
        else if c :: rest.takeWhile isAsciiAlphabetic = "null".toList then
          .ok .Null
        else .error .UnkownKeyword), rest.dropWhile isAsciiAlphabetic) := by
  rw [next_alphaLead h, scanKeyword]
  split_ifs <;> rfl

theorem C7_witness :
    next ("nulll".toList) = some (.error .UnkownKeyword, []) :=
  (C7_keyword 'n' ("ulll".toList) (by decide)).trans (by decide)

/-- The token under a successful `Result` item. -/
def okToken : Except Error Token → Option Token
  | .ok t => some t
  | .error _ => none

/-- Rust's `collect::<Result<Vec<Token>, Error>>` on an item list: the
first error, or all the tokens. -/
def collectR : List (Except Error Token) → Except Error (List Token)
  | [] => .ok []
  | .error e :: _ => .error e
  | .ok t :: l => (collectR l).map (t :: ·)

theorem lex_eq_collectR (s : List Char) : lex s = collectR (lexItems s) := by
  have H : ∀ (n : ℕ) (s : List Char), s.length ≤ n → lex s = collectR (lexItems s) := by
    intro n
    induction n with
    | zero =>
      intro s hs
      have hnil : s = [] := List.eq_nil_of_length_eq_zero (Nat.le_zero.mp hs)
      subst hnil
      rfl
    | succ n ih =>
      intro s hs
      cases hn : next s with
      | none => rw [lex_none hn, lexItems_none hn]; rfl
      | some p =>
        obtain ⟨r, rest⟩ := p
        have hl := next_some_length hn
        cases r with
        | error e => rw [lex_step_error hn, lexItems_step hn]; rfl
        | ok t => rw [lex_step_ok hn, lexItems_step hn, ih rest (by omega)]; rfl
  exact H s.length s le_rfl

theorem collectR_spec (l : List (Except Error Token)) :
    ((∀ r ∈ l, ∃ t, r = .ok t) ∧ collectR l = .ok (l.filterMap okToken)) ∨
      (∃ pre e post, l = pre ++ .error e :: post ∧ (∀ r ∈ pre, ∃ t, r = .ok t) ∧
        collectR l = .error e) := by
  induction l with
  | nil => exact Or.inl ⟨by simp, rfl⟩
  | cons r l ih =>
    cases r with
    | error e => exact Or.inr ⟨[], e, l, rfl, by simp, rfl⟩
    | ok t =>
      rcases ih with ⟨h1, h2⟩ | ⟨pre, e, post, hl, hpre, hc⟩
      · left
        constructor
        · intro r hr
          rcases List.mem_cons.mp hr with rfl | hr'
          · exact ⟨t, rfl⟩
          · exact h1 r hr'
        · show (collectR l).map (t :: ·) = _
          rw [h2]
          rfl
      · right
        refine ⟨.ok t :: pre, e, post, by rw [hl]; rfl, ?_, ?_⟩
        · intro r hr
          rcases List.mem_cons.mp hr with rfl | hr'
          · exact ⟨t, rfl⟩
          · exact hpre r hr'
        · show (collectR l).map (t :: ·) = _
          rw [hc]
          rfl

/-- C5: `lex` returns the first error of the per-token item stream
(dropping the earlier tokens), or the full token list when no item errors;
exhausted input is end-of-sequence, not an error, so `lex` on the empty
input is `ok []`. -/
theorem C5_lex_contract :
    (∀ s : List Char,
        ((∀ r ∈ lexItems s, ∃ t, r = .ok t) ∧
          lex s = .ok ((lexItems s).filterMap okToken)) ∨
        (∃ pre e post, lexItems s = pre ++ .error e :: post ∧
          (∀ r ∈ pre, ∃ t, r = .ok t) ∧ lex s = .error e)) ∧
      next [] = none ∧ lex [] = .ok [] := by
  refine ⟨fun s => ?_, rfl, rfl⟩
  have h := collectR_spec (lexItems s)
  rw [← lex_eq_collectR s] at h
  exact h

theorem ws_not_digit {x : Char} (h : isAsciiWhitespace x = true) :
    x.isDigit = false := by
  rcases ws_char_cases h with rfl | rfl | rfl | rfl | rfl <;> rfl

theorem ws_not_number_char {x : Char} (h : isAsciiWhitespace x = true) :
    mantissaChar x = false ∧ ¬x = 'e' ∧ ¬x = 'E' := by
  rcases ws_char_cases h with rfl | rfl | rfl | rfl | rfl <;>
    exact ⟨rfl, by decide, by decide⟩

/-- A lone digit token: `next` on a digit whose following character (if
any) extends neither the mantissa nor an exponent marker emits the
digit's value and consumes only the digit. -/
theorem next_digit_stop {d : Char} {rest : List Char} (hd : d.isDigit = true)
    (h0 : d = '0' → ∀ x, rest.head? = some x → x.isDigit = false)
    (hstop : ∀ x r', rest = x :: r' → (mantissaChar x = false ∧ ¬x = 'e' ∧ ¬x = 'E')) :
    next (d :: rest) = some (.ok (.Number ⟨((d.toNat - 48 : ℕ) : ℚ), none⟩), rest) := by
  have hdm : ¬d = '-' := ne_of_pred hd (by decide)
  have hdp : ¬d = '+' := ne_of_pred hd (by decide)
  have hde : ¬d = 'e' := ne_of_pred hd (by decide)
  have hdE : ¬d = 'E' := ne_of_pred hd (by decide)
  have hpf : parseF64 [d] = some ((d.toNat - 48 : ℕ) : ℚ) := by
    rw [parseF64, splitSign]
    simp only [if_neg hdm, if_neg hdp]
    have hbe : (fun c => !(c == 'e' || c == 'E')) d = true := by
      simp [hde, hdE]
    simp only [List.takeWhile_cons, hbe, if_true, List.takeWhile_nil]
    rw [parseDecimalCore]
    simp only [List.takeWhile_cons, hd, if_true, List.takeWhile_nil,
      List.length_cons, List.length_nil, List.drop_succ_cons, List.drop_nil]
    simp [digitsToNat]
  rw [next_numberLead (Or.inl hd), scanNumber, earlyNumberErr_none hdp h0]
  have htw := @takeWhile_middle mantissaChar [] rest (by simp)
    (fun y r' hy => ((hstop y r' hy).1))
  rw [List.nil_append] at htw
  rw [htw.2]
  cases rest with
  | nil =>
    rw [scanExponent]
    rw [htw.1]
    simp [hpf]
  | cons y r =>
    obtain ⟨-, hye, hyE⟩ := hstop y r rfl
    rw [scanExponent]
    rw [htw.1]
    simp only [hye, hyE, or_self, if_false]
    simp [hpf]

theorem C8_counterexample :
    lexItems ("0 1 2".toList) =
        [.ok (.Number ⟨0, none⟩), .ok (.Number ⟨1, none⟩), .ok (.Number ⟨2, none⟩)] ∧
      lexItems ("012".toList) = [.error .InvalidNumberFormat] ∧
      lexItems ("0 1 2".toList) ≠ lexItems ("012".toList) := by
  refine ⟨by decide, by decide, by decide⟩

theorem C5_witness : lex [] = .ok [] :=
  C5_lex_contract.2.2

theorem C10_witness : earlyNumberErr '-' ("01".toList) = none :=
  C10_minus_no_early_reject.1 ("01".toList)

/-- A whitespace-delimited token text: standing before an input remainder
that is empty or starts with ASCII whitespace, the very next `next` call
consumes exactly `t` and produces the item `r`. -/
def TokenItem (t : List Char) (r : Except Error Token) : Prop :=
  ∀ u : List Char,
    (u = [] ∨ ∃ c u', u = c :: u' ∧ isAsciiWhitespace c = true) →
      next (t ++ u) = some (r, u)

/-- Interleave whitespace runs and token texts:
`w₁ ++ t₁ ++ w₂ ++ t₂ ++ … ++ wₙ ++ tₙ ++ wEnd` for
`ps = [((w₁, t₁), r₁), …, ((wₙ, tₙ), rₙ)]`. -/
def joinWsTokens :
    List ((List Char × List Char) × Except Error Token) → List Char → List Char
  | [], wEnd => wEnd
  | p :: ps, wEnd => p.1.1 ++ (p.1.2 ++ joinWsTokens ps wEnd)

theorem joinWsTokens_shape
    (ps : List ((List Char × List Char) × Except Error Token)) (wEnd : List Char)
    (hEnd : ∀ c ∈ wEnd, isAsciiWhitespace c = true)
    (hsep : ∀ p ∈ ps, p.1.1 ≠ [] ∧ ∀ c ∈ p.1.1, isAsciiWhitespace c = true) :
    joinWsTokens ps wEnd = [] ∨
      ∃ c u', joinWsTokens ps wEnd = c :: u' ∧ isAsciiWhitespace c = true := by
  cases ps with
  | nil =>
    cases wEnd with
    | nil => exact Or.inl rfl
    | cons c w' => exact Or.inr ⟨c, w', rfl, hEnd c (by simp)⟩
  | cons p ps =>
    obtain ⟨hne, hws⟩ := hsep p (by simp)
    cases hp : p.1.1 with
    | nil => exact absurd hp hne
    | cons a w' =>
      refine Or.inr ⟨a, w' ++ (p.1.2 ++ joinWsTokens ps wEnd), ?_, ?_⟩
      · rw [joinWsTokens, hp]
        rfl
      · exact hws a (by rw [hp]; simp)

/-- C8 (amended): whitespace between tokens is transparent as long as the
separating runs stay nonempty.  For every stream of whitespace-delimited
token texts, the emitted item sequence is exactly the tokens' items — it
depends only on the token texts, never on the choice of the nonempty
ASCII-whitespace runs separating them nor on the (possibly empty) leading
and trailing runs, so inserting extra whitespace or replacing an
inter-token run by any other nonempty run never changes the sequence.
Removing a run entirely is not transparent: it can merge adjacent tokens
(see the counterexample). -/
theorem C8_ws_replacement
    (ps : List ((List Char × List Char) × Except Error Token)) (wEnd : List Char)
    (hEnd : ∀ c ∈ wEnd, isAsciiWhitespace c = true)
    (hws : ∀ p ∈ ps, ∀ c ∈ p.1.1, isAsciiWhitespace c = true)
    (htok : ∀ p ∈ ps, TokenItem p.1.2 p.2)
    (hsep : ∀ p ∈ ps.tail, p.1.1 ≠ []) :
    lexItems (joinWsTokens ps wEnd) = ps.map (fun p => p.2) := by
  induction ps with
  | nil =>
    have h := lexItems_ws_append hEnd []
    rw [List.append_nil] at h
    rw [joinWsTokens, h]
    rfl
  | cons p ps ih =>
    rw [joinWsTokens]
    rw [lexItems_ws_append (hws p (by simp))]
    have hshape := joinWsTokens_shape ps wEnd hEnd
      (fun q hq => ⟨hsep q (by simpa using hq), hws q (by simp [hq])⟩)
    have hstep := htok p (by simp) (joinWsTokens ps wEnd) hshape
    rw [lexItems_step hstep]
    rw [ih (fun q hq => hws q (by simp [hq])) (fun q hq => htok q (by simp [hq]))
      (fun q hq => hsep q (by simp [List.mem_of_mem_tail hq]))]
    rfl

/-- Any single ASCII digit is a whitespace-delimited token text for the
`Number` of its value. -/
theorem TokenItem_digit {d : Char} {q : ℚ} (hd : d.isDigit = true)
    (hq : ((d.toNat - 48 : ℕ) : ℚ) = q) :
    TokenItem [d] (.ok (.Number ⟨q, none⟩)) := by
  intro u hu
  subst hq
  have h0 : d = '0' → ∀ x, u.head? = some x → x.isDigit = false := by
    intro _ x hx
    rcases hu with rfl | ⟨c, u', rfl, hc⟩
    · simp at hx
    · simp only [List.head?_cons] at hx
      injection hx with hx'
      rw [← hx']
      exact ws_not_digit hc
  have hstop : ∀ x r', u = x :: r' →
      (mantissaChar x = false ∧ ¬x = 'e' ∧ ¬x = 'E') := by
    intro x r' hxr
    rcases hu with rfl | ⟨c, u', rfl, hc⟩
    · simp at hxr
    · injection hxr with h1 h2
      rw [← h1]
      exact ws_not_number_char hc
  exact next_digit_stop hd h0 hstop

theorem C8_witness :
    lexItems ("0 1 2".toList) =
        [.ok (.Number ⟨0, none⟩), .ok (.Number ⟨1, none⟩), .ok (.Number ⟨2, none⟩)] ∧
      lexItems ("0\t1\n2".toList) =
        [.ok (.Number ⟨0, none⟩), .ok (.Number ⟨1, none⟩), .ok (.Number ⟨2, none⟩)] := by
  have ht0 : TokenItem ['0'] (.ok (.Number ⟨0, none⟩)) :=
    TokenItem_digit (by decide) (by decide)
  have ht1 : TokenItem ['1'] (.ok (.Number ⟨1, none⟩)) :=
    TokenItem_digit (by decide) (by decide)
  have ht2 : TokenItem ['2'] (.ok (.Number ⟨2, none⟩)) :=
    TokenItem_digit (by decide) (by decide)
  constructor
  · have h := C8_ws_replacement
      [(([], ['0']), .ok (.Number ⟨0, none⟩)),
       (([' '], ['1']), .ok (.Number ⟨1, none⟩)),
       (([' '], ['2']), .ok (.Number ⟨2, none⟩))] []
      (by simp)
      (by intro p hp; fin_cases hp <;> decide)
      (by
        intro p hp
        fin_cases hp
        · exact ht0
        · exact ht1
        · exact ht2)
      (by intro p hp; fin_cases hp <;> decide)
    exact h
  · have h := C8_ws_replacement
      [(([], ['0']), .ok (.Number ⟨0, none⟩)),
       ((['\t'], ['1']), .ok (.Number ⟨1, none⟩)),
       ((['\n'], ['2']), .ok (.Number ⟨2, none⟩))] []
      (by simp)
      (by intro p hp; fin_cases hp <;> decide)
      (by
        intro p hp
        fin_cases hp
        · exact ht0
        · exact ht1
        · exact ht2)
      (by intro p hp; fin_cases hp <;> decide)
    exact h
end JsonLexer
